import Mathlib

/-!
# Verification of the lineage-tree extraction and annotation model

Shallow embedding of the core data model and algorithms of the
`motile_napari_plugin` repository:

* `extract_sorted_tracks` and `sort_track_ids`
  (`src/motile_plugin/utils/tree_widget_utils.py`),
* `get_existing_pins` / `get_existing_forks_endpoints` (same file),
* the node-selection and node/edge editing logic of
  `LineageTreeWidget` (`src/motile_plugin/widgets/tree_widget.py`),
* the pin derivation `_get_pins` and its application in
  `backend/solve.py`.

Node identifiers (Python strings) are modelled as `Nat`.  Positions are
carried as `List Int` (their values never influence control flow beyond
their length).  Python `None` is modelled with `Option`, Python
exceptions (`IndexError`, `KeyError`, `ValueError`) with
`Except String`.  The napari colormap collaborator
(`labels.colormap.map`) is an external dependency and is passed in as an
abstract function `cmap : Nat → List Nat`.
-/

/-- A node of the solved tracking graph: its id and the networkx node
attributes used by the code (`NodeAttr.TIME.value` and
`NodeAttr.POS.value`). -/
structure PNode where
  id : Nat
  t : Nat
  pos : List Int
deriving Repr, DecidableEq

/-- A networkx `DiGraph` as the extraction code observes it: the node
list in insertion order (networkx iterates nodes in insertion order) and
the directed edge list in insertion order. -/
structure TGraph where
  nodes : List PNode
  edges : List (Nat × Nat)
deriving Repr, DecidableEq

/-- Embeds `G.out_degree(u)`. -/
def outDeg (g : TGraph) (u : Nat) : Nat :=
  (g.edges.filter (fun e => e.1 == u)).length

/-- Embeds `G.in_degree(v)`. -/
def inDeg (g : TGraph) (v : Nat) : Nat :=
  (g.edges.filter (fun e => e.2 == v)).length

/-- Embeds `list(G.predecessors(v))` — in edge-insertion order, as networkx
keeps predecessor adjacency in insertion order. -/
def predsOf (g : TGraph) (v : Nat) : List Nat :=
  g.edges.filterMap (fun e => if e.2 == v then some e.1 else none)

/-- The edges of `soln_copy`: the copy of the graph with all outgoing
edges of division nodes (out-degree > 1) removed. -/
def reducedEdges (g : TGraph) : List (Nat × Nat) :=
  g.edges.filter (fun e => outDeg g e.1 ≤ 1)

/-- Neighbours of `u` in the undirected view of an edge list (used for
weak connectivity). -/
def undirNbrs (es : List (Nat × Nat)) (u : Nat) : List Nat :=
  es.filterMap (fun e =>
    if e.1 == u then some e.2 else if e.2 == u then some e.1 else none)

/-- One expansion step of the weakly-connected closure: add all
neighbours of current members. -/
def growComp (es : List (Nat × Nat)) (s : List Nat) : List Nat :=
  s ++ ((s.map (undirNbrs es)).flatten.filter (fun v => ¬ s.contains v)).dedup

/-- All nodes weakly connected to `u` in the reduced graph (fixed point
of `growComp` is reached after at most `|nodes|` steps). -/
def compMembers (g : TGraph) (u : Nat) : List Nat :=
  (growComp (reducedEdges g))^[g.nodes.length] [u]

/-- The weakly connected component of `u` in the reduced graph,
canonically listed in node-insertion order. -/
def compOf (g : TGraph) (u : Nat) : List Nat :=
  (g.nodes.map PNode.id).filter (fun v => (compMembers g u).contains v)

/-- Embeds `nx.weakly_connected_components(soln_copy)`: components emitted in
order of their first node in node-insertion order. -/
def componentsAux (g : TGraph) : List Nat → List Nat → List (List Nat)
  | [], _ => []
  | v :: rest, seen =>
    if seen.contains v then componentsAux g rest seen
    else compOf g v :: componentsAux g rest (seen ++ compOf g v)

/-- The list of weakly connected components of the reduced graph, in
discovery order. -/
def components (g : TGraph) : List (List Nat) :=
  componentsAux g (g.nodes.map PNode.id) []

/-- Node-attribute lookup `solution_nx_graph.nodes[v]`; node ids fed to
it always come from the graph's node list. -/
def nodeData (g : TGraph) (v : Nat) : PNode :=
  (g.nodes.find? (fun n => n.id == v)).getD ⟨v, 0, []⟩

/-- Stable insertion of `v` into a list already sorted by time.  The
sort below inserts earlier-listed elements last, so `v` must land before
every element of equal time (those were listed after it), matching
Python's stable `sorted`. -/
def insertByT (g : TGraph) (v : Nat) : List Nat → List Nat
  | [] => [v]
  | w :: ws =>
    if (nodeData g w).t < (nodeData g v).t then w :: insertByT g v ws
    else v :: w :: ws

/-- Embeds `sorted(node_set, key=lambda node: time(node))`.  The Python input
is a set with implementation-defined iteration order; the embedding
starts from the canonical node-insertion order, which the stable sort
preserves among equal times. -/
def sortByTime (g : TGraph) : List Nat → List Nat
  | [] => []
  | v :: vs => insertByT g v (sortByTime g vs)

/-- One row of the extracted track table (one `track_dict` of
`extract_sorted_tracks`).  `x_axis_pos` is filled in by the final layout
pass; while rows are being accumulated it holds `0`. -/
structure Row where
  t : Nat
  node_id : Nat
  track_id : Nat
  color : List Nat
  x : Int
  y : Int
  z : Option Int
  index : Nat
  parent_id : Nat
  parent_track_id : Nat
  x_axis_pos : Nat
deriving Repr, DecidableEq

/-- The mutable loop state of `extract_sorted_tracks`: the accumulated
`track_list`, the row counter `counter` and the track counter
`id_counter`. -/
structure ExtractState where
  trackList : List Row
  counter : Nat
  idCounter : Nat
deriving Repr, DecidableEq

/-- Embeds `[node['track_id'] for node in track_list if node['node_id'] == parent_id][0]`:
the first matching track id, `none` when the comprehension is empty
(where Python raises `IndexError`). -/
def lookupTrackId (trackList : List Row) (pid : Nat) : Option Nat :=
  ((trackList.filter (fun r => r.node_id == pid)).map Row.track_id).head?

/-- Append one freshly built row (`track_list.append(track_dict)` and
`counter += 1`). -/
def pushRow (st : ExtractState) (r : Row) : ExtractState :=
  { st with trackList := st.trackList ++ [r], counter := st.counter + 1 }

/-- Build the `track_dict` for node `nd` with the given parent fields:
`'x': pos[-1]`, `'y': pos[-2]`, `'z': pos[0]` when the position has
three components, `'color': labels.colormap.map(id_counter) * 255`. -/
def mkRow (cmap : Nat → List Nat) (st : ExtractState) (nd : PNode)
    (pid ptid : Nat) : Row :=
  { t := nd.t
    node_id := nd.id
    track_id := st.idCounter
    color := cmap st.idCounter
    x := nd.pos.getLastD 0
    y := nd.pos.getD (nd.pos.length - 2) 0
    z := if nd.pos.length == 3 then some (nd.pos.getD 0 0) else none
    index := st.counter
    parent_id := pid
    parent_track_id := ptid
    x_axis_pos := 0 }

/-- The body of the inner `for node in sorted_nodes` loop of
`extract_sorted_tracks`.  `ptid` is the Python local `parent_track_id`
(`none` = Python `None`).  Positions with fewer than two components make
Python's `pos[-2]` raise `IndexError`; a chain-first node whose
predecessor has no row yet makes the `[...][0]` lookup raise
`IndexError`. -/
def processNode (g : TGraph) (cmap : Nat → List Nat) (st : ExtractState)
    (ptid : Option Nat) (nd : PNode) :
    Except String (ExtractState × Option Nat) :=
  if nd.pos.length < 2 then .error "IndexError: pos[-2] out of range"
  else
    match predsOf g nd.id with
    | [] => .ok (pushRow st (mkRow cmap st nd 0 0), some 0)
    | p :: _ =>
      match ptid with
      | some v => .ok (pushRow st (mkRow cmap st nd p v), some v)
      | none =>
        match lookupTrackId st.trackList p with
        | some tid => .ok (pushRow st (mkRow cmap st nd p tid), some tid)
        | none => .error "IndexError: parent_id not yet in track_list"

/-- Run the inner loop over the time-sorted nodes of one component. -/
def processNodes (g : TGraph) (cmap : Nat → List Nat) :
    List Nat → ExtractState → Option Nat →
    Except String (ExtractState × Option Nat)
  | [], st, ptid => .ok (st, ptid)
  | v :: vs, st, ptid =>
    match processNode g cmap st ptid (nodeData g v) with
    | .error e => .error e
    | .ok (st', ptid') => processNodes g cmap vs st' ptid'

/-- Process one weakly connected component: sort its nodes by time, run
the inner loop, record the `parent_mapping` entry
`{'track_id': id_counter, 'parent_track_id': parent_track_id}` and then
`id_counter += 1`.  The mapping keeps the Python `None`/int distinction
in an `Option`. -/
def processComponent (g : TGraph) (cmap : Nat → List Nat)
    (st : ExtractState) (comp : List Nat) :
    Except String (ExtractState × (Nat × Option Nat)) :=
  match processNodes g cmap (sortByTime g comp) st none with
  | .error e => .error e
  | .ok (st', ptid) =>
    .ok ({ st' with idCounter := st'.idCounter + 1 }, (st'.idCounter, ptid))

/-- The outer `for node_set in nx.weakly_connected_components(...)`
loop, also collecting `parent_mapping`. -/
def extractLoop (g : TGraph) (cmap : Nat → List Nat) :
    List (List Nat) → ExtractState →
    Except String (ExtractState × List (Nat × Option Nat))
  | [], st => .ok (st, [])
  | c :: cs, st =>
    match processComponent g cmap st c with
    | .error e => .error e
    | .ok (st', entry) =>
      match extractLoop g cmap cs st' with
      | .error e => .error e
      | .ok (stF, rest) => .ok (stF, entry :: rest)

/-- Embeds `xs.index(x)` for a list known to contain `x` (all call sites insert
their argument first; on an absent element Python would raise
`ValueError`). -/
def pyIndex : List Nat → Nat → Nat
  | [], _ => 0
  | y :: ys, x => if y == x then 0 else pyIndex ys x + 1

/-- Embeds `xs.insert(i, x)` — Python clamps the index into `[0, len]`. -/
def pyInsert (xs : List Nat) (i : Nat) (x : Nat) : List Nat :=
  xs.take i ++ x :: xs.drop i

/-- Embeds `[node['track_id'] for node in track_list if node['parent_track_id'] == track_id]`. -/
def childrenOf (tl : List (Nat × Option Nat)) (tid : Nat) : List Nat :=
  tl.filterMap (fun e => if e.2 == some tid then some e.1 else none)

/-- One pass of the `while len(roots) > 0` loop of `sort_track_ids`:
for every current root, insert its `i`-th child (0-based) at position
`x_axis_order.index(track_id) + i`, re-reading the parent's position
after every insertion, and collect all children as the next roots. -/
def sortPass (tl : List (Nat × Option Nat)) (roots order : List Nat) :
    List Nat × List Nat :=
  roots.foldl
    (fun acc tid =>
      let children := childrenOf tl tid
      (acc.1 ++ children,
       (children.foldl
          (fun p c => (pyInsert p.1 (pyIndex p.1 tid + p.2) c, p.2 + 1))
          (acc.2, 0)).1))
    (([], order) : List Nat × List Nat)

/-- Fuel-driven version of the `while` loop.  Each `parent_mapping`
entry produced by the extraction has a parent strictly smaller than its
own track id, so the loop always terminates within `|track_list| + 1`
passes; the fuel only serves to make the definition total. -/
def sortTrackAux (tl : List (Nat × Option Nat)) :
    Nat → List Nat → List Nat → List Nat
  | 0, _, order => order
  | fuel + 1, roots, order =>
    if roots.isEmpty then order
    else
      let (nextRoots, order') := sortPass tl roots order
      sortTrackAux tl fuel nextRoots order'

/-- Embeds `sort_track_ids` (`tree_widget_utils.py`): left-first ordering of
track columns.  Roots are the entries with `parent_track_id == 0`
(Python `None == 0` is `False`, hence the `some 0` comparison). -/
def sort_track_ids (tl : List (Nat × Option Nat)) : List Nat :=
  let roots := tl.filterMap (fun e => if e.2 == some 0 then some e.1 else none)
  sortTrackAux tl (tl.length + 1) roots roots

/-- The final pass `node['x_axis_pos'] = x_axis_order.index(node['track_id'])`
over `track_list`; `.index` raises `ValueError` on an absent value. -/
def assignXPos (order : List Nat) : List Row → Except String (List Row)
  | [] => .ok []
  | r :: rs =>
    if order.contains r.track_id then
      match assignXPos order rs with
      | .ok rs' => .ok ({ r with x_axis_pos := pyIndex order r.track_id } :: rs')
      | .error e => .error e
    else .error "ValueError: track_id not in x_axis_order"

/-- Embeds `extract_sorted_tracks(solution_nx_graph, labels)`
(`tree_widget_utils.py`): the full extraction, returning the rows of the
resulting data frame in construction order. -/
def extract_sorted_tracks (g : TGraph) (cmap : Nat → List Nat) :
    Except String (List Row) :=
  match extractLoop g cmap (components g) ⟨[], 0, 1⟩ with
  | .error e => .error e
  | .ok (st, mapping) => assignXPos (sort_track_ids mapping) st.trackList

/-- Embeds `xs.remove(x)`: Python removes the first occurrence and raises
`ValueError` when the element is absent. -/
def pyRemove (xs : List Nat) (x : Nat) : Except String (List Nat) :=
  if xs.contains x then .ok (xs.erase x)
  else .error "ValueError: list.remove(x): x not in list"

/-- Embeds `LineageTreeWidget._edit_node` (`tree_widget.py`), restricted to the
annotation state it mutates: the `self.forks` and `self.endpoints` id
lists (the symbol/size/brush arrays are derived presentation data).  The
`'Close'` branch mirrors the source exactly: its guard tests membership
in `forks` but the removal is performed on `endpoints`. -/
def edit_node (edit : String) (nodeId : Nat) (forks endpoints : List Nat) :
    Except String (List Nat × List Nat) :=
  if edit == "Fork" then
    match (if endpoints.contains nodeId then pyRemove endpoints nodeId
           else .ok endpoints) with
    | .error e => .error e
    | .ok endpoints' => .ok (forks ++ [nodeId], endpoints')
  else if edit == "Close" then
    match (if forks.contains nodeId then pyRemove endpoints nodeId
           else .ok endpoints) with
    | .error e => .error e
    | .ok endpoints' => .ok (forks, endpoints' ++ [nodeId])
  else
    match (if forks.contains nodeId then pyRemove forks nodeId
           else .ok forks) with
    | .error e => .error e
    | .ok forks' =>
      match (if endpoints.contains nodeId then pyRemove endpoints nodeId
             else .ok endpoints) with
      | .error e => .error e
      | .ok endpoints' => .ok (forks', endpoints')

/-- Embeds `LineageTreeWidget._select_node`, restricted to its effect on
`self.selected` (rows are identified by node id here): if two nodes are
already selected the list is cleared first; then a SHIFT-click with
exactly one node selected appends, anything else replaces. -/
def select_node (selected : List Nat) (node : Nat) (shiftMod : Bool) :
    List Nat :=
  let selected := if selected.length == 2 then [] else selected
  if shiftMod && selected.length == 1 then selected ++ [node]
  else [node]

/-- The swap `self.selected = [self.selected[1], self.selected[0]]`
performed by `_check_connection` (a no-op unless exactly two nodes are
selected; the source only reaches it in that state). -/
def flipSel (s : List Nat) : List Nat :=
  match s with
  | [a, b] => [b, a]
  | s => s

/-- Embeds `self.selected = []` as performed by `_edit_edge` / `_edit_node`
and on every new extraction. -/
def resetSel : List Nat := []

/-- The selection mutations reachable from user interaction. -/
inductive SelOp where
  | click (node : Nat) (shiftMod : Bool)
  | swap
  | clear
deriving Repr, DecidableEq

/-- Apply one selection operation. -/
def applySelOp (s : List Nat) : SelOp → List Nat
  | .click n m => select_node s n m
  | .swap => flipSel s
  | .clear => resetSel

/-- Apply a sequence of selection operations from left to right. -/
def runSelOps (s : List Nat) (ops : List SelOp) : List Nat :=
  ops.foldl applySelOp s

/-- A selected node as `_check_connection` sees it: its snapshot row,
of which only the `'t'` value is read (`Int`, faithful to Python's
unbounded signed arithmetic). -/
structure SelNode where
  nid : Nat
  t : Int
deriving Repr, DecidableEq

/-- Embeds `LineageTreeWidget._check_connection` (`tree_widget.py`; the
`AnnotationButtons._check_connection` of `edit_button_widget.py` is the
same logic via `selected_nodes.flip()`).  The source indexes
`self.selected[0]` and `self.selected[1]` and is only called with
exactly two selected nodes, so the embedding takes the two nodes;
it returns the boolean result and the selection list afterwards. -/
def check_connection (n1 n2 : SelNode) : Bool × List SelNode :=
  let tp1 := n1.t
  let tp2 := n2.t
  if ¬ (tp2 - tp1 = 1 ∨ tp1 - tp2 = 1) then (false, [n1, n2])
  else if tp2 < tp1 then (true, [n2, n1])
  else (true, [n1, n2])

/-- A Python attribute value as stored on graph nodes/edges by this
code base: booleans or integers (the attributes the claims concern are
set as `True`/`False` by `solve` and may in principle hold any truthy
value). -/
inductive PyVal where
  | pybool (b : Bool)
  | pyint (n : Int)
deriving Repr, DecidableEq

/-- Python truthiness of an attribute value. -/
def truthy : PyVal → Bool
  | .pybool b => b
  | .pyint n => n != 0

/-- Embeds `data.get('pinned') is True`: identity comparison with the `True`
singleton — `1 is True` is `False` in Python even though `1 == True`. -/
def isTrueVal : Option PyVal → Bool
  | some (.pybool true) => true
  | _ => false

/-- A networkx `DiGraph` with the annotation attributes the recovery
functions read: per node `(id, fork attribute, endpoint attribute)` and
per edge `(u, v, pinned attribute)`; a missing attribute is `none`
(`data.get` returns `None`). -/
structure AGraph where
  nodes : List (Nat × Option PyVal × Option PyVal)
  edges : List (Nat × Nat × Option PyVal)
deriving Repr, DecidableEq

/-- Embeds `get_existing_pins` (`tree_widget_utils.py`): the edges whose
`'pinned'` attribute `is True`. -/
def get_existing_pins (g : AGraph) : List (Nat × Nat) :=
  g.edges.filterMap (fun e => if isTrueVal e.2.2 then some (e.1, e.2.1) else none)

/-- Embeds `get_existing_forks_endpoints` (`tree_widget_utils.py`): the nodes
whose `'fork'` attribute `is True` and those whose `'endpoint'`
attribute `is True` (the source fills both lists in one loop over the
nodes; the result is the same pair of lists). -/
def get_existing_forks_endpoints (g : AGraph) : List Nat × List Nat :=
  (g.nodes.filterMap (fun n => if isTrueVal n.2.1 then some n.1 else none),
   g.nodes.filterMap (fun n => if isTrueVal n.2.2 then some n.1 else none))

/-- One row of the edit-log table (`self.table_widget._data`): source
node, target node and the action string (`"Add"` or `"Break"`); the
colour columns are presentation only. -/
structure EditRow where
  source : Nat
  target : Nat
  action : String
deriving Repr, DecidableEq

/-- Embeds `LineageTreeWidget._get_pins` (`tree_widget.py`): map `"Add"` rows
to `pinned=True` and `"Break"` rows to `pinned=False`, in table order.
(The source's early `return None` tests `len(self table dict)`, which
is the constant number of columns, 5, so it never fires.) -/
def get_pins (edits : List EditRow) : List (Nat × Nat × Bool) :=
  edits.filterMap (fun e =>
    if e.action == "Add" then some (e.source, e.target, true)
    else if e.action == "Break" then some (e.source, e.target, false)
    else none)

/-- Embeds `cand_graph[source_id][target_id]["pinned"] = value` — overwrite the
attribute on every stored edge with that key (networkx holds one). -/
def setEdgeAttr (es : List (Nat × Nat × Option PyVal)) (s t : Nat)
    (v : PyVal) : List (Nat × Nat × Option PyVal) :=
  es.map (fun e => if e.1 == s && e.2.1 == t then (e.1, e.2.1, some v) else e)

/-- Whether the candidate graph holds an edge `s → t`. -/
def edgeExists (es : List (Nat × Nat × Option PyVal)) (s t : Nat) : Bool :=
  es.any (fun e => e.1 == s && e.2.1 == t)

/-- The pin-application loop of `solve` (`backend/solve.py`): for each
derived pin, set the `'pinned'` attribute of the matching candidate
edge; indexing a missing edge raises `KeyError` in Python. -/
def applyPins : AGraph → List (Nat × Nat × Bool) → Except String AGraph
  | g, [] => .ok g
  | g, (s, t, v) :: rest =>
    if edgeExists g.edges s t then
      applyPins { g with edges := setEdgeAttr g.edges s t (.pybool v) } rest
    else .error "KeyError: edge not in candidate graph"

/-- Modelled from the spec: the external solver returns "a directed
graph restricted to the solver's selected nodes/edges, annotated with
the original `pinned`/`fork`/`endpoint` attributes" (spec section 6).
The restriction to a selected edge set keeps attributes untouched. -/
def solverSelect (g : AGraph) (sel : List (Nat × Nat)) : AGraph :=
  { nodes := g.nodes
    edges := g.edges.filter (fun e => sel.contains (e.1, e.2.1)) }

/-- Modelled from the spec: the `Pin` constraint handed to the solver
("a forced true/false constraint on whether a specific edge is selected",
glossary; `solve` adds `Pin("pinned")`): any solver-chosen edge set
includes every edge whose `'pinned'` attribute is `True` and excludes
every edge whose `'pinned'` attribute is `False`. -/
def PinRespecting (g : AGraph) (sel : List (Nat × Nat)) : Prop :=
  ∀ e ∈ g.edges,
    (e.2.2 = some (.pybool true) → (e.1, e.2.1) ∈ sel) ∧
    (e.2.2 = some (.pybool false) → (e.1, e.2.1) ∉ sel)

/-- The value the pin loop leaves on edge `(u, v)`: the last pin listed
for that edge, if any. -/
def findPin (ps : List (Nat × Nat × Bool)) (u v : Nat) : Option Bool :=
  ps.foldl (fun acc p => if p.1 == u && p.2.1 == v then some p.2.2 else acc)
    none

/-- Embeds `list(G.successors(u))`. -/
def succsOf (g : TGraph) (u : Nat) : List Nat :=
  g.edges.filterMap (fun e => if e.1 == u then some e.2 else none)

/-- One expansion step of directed reachability. -/
def growDir (g : TGraph) (s : List Nat) : List Nat :=
  s ++ ((s.map (succsOf g)).flatten.filter (fun v => ¬ s.contains v)).dedup

/-- All nodes reachable from `u` by at least one directed edge. -/
def descendants (g : TGraph) (u : Nat) : List Nat :=
  (growDir g)^[g.nodes.length] (succsOf g u)

/-- Decidable test that every node has in-degree at most one. -/
def inDegLeOneB (g : TGraph) : Bool :=
  g.nodes.all (fun nd => inDeg g nd.id ≤ 1)

/-- Decidable acyclicity: no node reaches itself through a nonempty
directed path. -/
def acyclicB (g : TGraph) : Bool :=
  g.nodes.all (fun nd => ¬ (descendants g nd.id).contains nd.id)

/-- The colormap used by the concrete test graphs (its output never
influences the properties under study). -/
def cmap0 : Nat → List Nat := fun _ => []

/-- Scenario B of the spec: `a (t=0)` dividing into `b (t=1)` and
`c (t=1)`; ids `a = 1`, `b = 2`, `c = 3`, nodes and edges inserted in
that order. -/
def gB : TGraph :=
  ⟨[⟨1, 0, [0, 0]⟩, ⟨2, 1, [0, 0]⟩, ⟨3, 1, [0, 0]⟩], [(1, 2), (1, 3)]⟩

/-- A graph with in-degree 2 at node `3`: `a = 1 (t=0)`,
`b = 2 (t=0)`, `c = 3 (t=1)` with edges `a → c` and `b → c`. -/
def gC : TGraph :=
  ⟨[⟨1, 0, [0, 0]⟩, ⟨2, 0, [0, 0]⟩, ⟨3, 1, [0, 0]⟩], [(1, 3), (2, 3)]⟩

/-- The division graph of `gB`, but with the children inserted into the
graph before the parent: node order `b = 2, c = 3, a = 1`, edges
`a → b`, `a → c`. -/
def gD : TGraph :=
  ⟨[⟨2, 1, [0, 0]⟩, ⟨3, 1, [0, 0]⟩, ⟨1, 0, [0, 0]⟩], [(1, 2), (1, 3)]⟩

/-- C1, counterexample.  On Scenario B the code places the parent track
`1` at column 1, not column 0: `sort_track_ids` inserts the `i`-th child
at `order.index(parent) + i`, so the first child (offset `0`) lands at
the parent's own position, pushing the parent right.  The extraction of
`gB` yields `x_axis_pos` 1 for `a`, 0 for `b`, 2 for `c`, refuting the
claimed columns `a ↦ 0`, `b ↦ 1`, `c ↦ 2`. -/
theorem scenarioB_layout_counterexample :
    extract_sorted_tracks gB cmap0 =
      Except.ok
        [⟨0, 1, 1, [], 0, 0, none, 0, 0, 0, 1⟩,
         ⟨1, 2, 2, [], 0, 0, none, 1, 1, 1, 0⟩,
         ⟨1, 3, 3, [], 0, 0, none, 2, 1, 1, 2⟩] ∧
    ¬ ([(⟨0, 1, 1, [], 0, 0, none, 0, 0, 0, 1⟩ : Row),
        ⟨1, 2, 2, [], 0, 0, none, 1, 1, 1, 0⟩,
        ⟨1, 3, 3, [], 0, 0, none, 2, 1, 1, 2⟩].map
          (fun r => (r.node_id, r.x_axis_pos)) = [(1, 0), (2, 1), (3, 2)]) :=
  ⟨rfl, by decide⟩

/-- C1, amended.  Scenario B yields 3 track ids, `a` alone forming track
1, `b` and `c` forming tracks 2 and 3 in discovery order, both with
`parent_track_id = 1` — but the layout inserts the `i`-th child (0-based)
at the parent's current position plus `i`, so the first child lands
immediately left of its parent and later siblings to its right: the
columns are `b ↦ 0`, `a ↦ 1`, `c ↦ 2`, and with three children the
column order is `[first child, parent, second child, third child]`. -/
theorem scenarioB_layout_amended :
    extract_sorted_tracks gB cmap0 =
      Except.ok
        [⟨0, 1, 1, [], 0, 0, none, 0, 0, 0, 1⟩,
         ⟨1, 2, 2, [], 0, 0, none, 1, 1, 1, 0⟩,
         ⟨1, 3, 3, [], 0, 0, none, 2, 1, 1, 2⟩] ∧
    sort_track_ids [(1, some 0), (2, some 1), (3, some 1)] = [2, 1, 3] ∧
    sort_track_ids [(1, some 0), (2, some 1), (3, some 1), (4, some 1)] =
      [2, 1, 3, 4] :=
  ⟨rfl, rfl, rfl⟩

/-- C2, counterexample.  On a graph whose node `3` has two predecessors
the extraction does not fail: it returns normally and records the first
listed predecessor (`1`) as `parent_id`, silently dropping `2`. -/
theorem indegree_two_counterexample :
    inDeg gC 3 = 2 ∧ predsOf gC 3 = [1, 2] ∧
    extract_sorted_tracks gC cmap0 =
      Except.ok
        [⟨0, 1, 1, [], 0, 0, none, 0, 0, 0, 0⟩,
         ⟨0, 2, 1, [], 0, 0, none, 1, 0, 0, 0⟩,
         ⟨1, 3, 1, [], 0, 0, none, 2, 1, 0, 0⟩] :=
  ⟨rfl, rfl, rfl⟩

/-- C9, counterexample.  `get_existing_pins` compares with `is True`,
so an edge whose `'pinned'` attribute is the truthy integer `1` is not
returned, refuting the claim that truthy non-boolean values are
included; likewise for a `'fork'` attribute of `1`. -/
theorem truthy_pins_counterexample :
    truthy (.pyint 1) = true ∧
    get_existing_pins ⟨[], [(1, 2, some (.pyint 1))]⟩ = [] ∧
    (get_existing_forks_endpoints ⟨[(7, some (.pyint 1), none)], []⟩).1 = [] :=
  ⟨rfl, rfl, rfl⟩

/-- C9, amended.  The recovery functions return exactly the edges/nodes
whose attribute is the boolean `True` (Python identity `is True`), not
every truthy value: membership characterisation for pins, forks and
endpoints. -/
theorem is_true_recovery_amended (g : AGraph) :
    (∀ u v, (u, v) ∈ get_existing_pins g ↔
      ∃ a, (u, v, a) ∈ g.edges ∧ a = some (.pybool true)) ∧
    (∀ n, n ∈ (get_existing_forks_endpoints g).1 ↔
      ∃ fa ea, (n, fa, ea) ∈ g.nodes ∧ fa = some (.pybool true)) ∧
    (∀ n, n ∈ (get_existing_forks_endpoints g).2 ↔
      ∃ fa ea, (n, fa, ea) ∈ g.nodes ∧ ea = some (.pybool true)) := by
  refine ⟨fun u v => ?_, fun n => ?_, fun n => ?_⟩
  · simp only [get_existing_pins, List.mem_filterMap]
    constructor
    · rintro ⟨⟨a, b, c⟩, hmem, hif⟩
      by_cases h : isTrueVal c = true
      · simp only [h, if_true, Option.some.injEq, Prod.mk.injEq] at hif
        refine ⟨c, ?_, ?_⟩
        · rwa [hif.1, hif.2] at hmem
        · rcases c with _ | ⟨_ | _⟩ <;> simp_all [isTrueVal]
          rename_i b'
          cases b' <;> simp_all [isTrueVal]
      · simp [h] at hif
    · rintro ⟨a, hmem, rfl⟩
      exact ⟨(u, v, some (.pybool true)), hmem, by simp [isTrueVal]⟩
  · simp only [get_existing_forks_endpoints, List.mem_filterMap]
    constructor
    · rintro ⟨⟨m, fa, ea⟩, hmem, hif⟩
      by_cases h : isTrueVal fa = true
      · simp only [h, if_true, Option.some.injEq] at hif
        refine ⟨fa, ea, ?_, ?_⟩
        · rwa [hif] at hmem
        · rcases fa with _ | ⟨_ | _⟩ <;> simp_all [isTrueVal]
          rename_i b'
          cases b' <;> simp_all [isTrueVal]
      · simp [h] at hif
    · rintro ⟨fa, ea, hmem, rfl⟩
      exact ⟨(n, some (.pybool true), ea), hmem, by simp [isTrueVal]⟩
  · simp only [get_existing_forks_endpoints, List.mem_filterMap]
    constructor
    · rintro ⟨⟨m, fa, ea⟩, hmem, hif⟩
      by_cases h : isTrueVal ea = true
      · simp only [h, if_true, Option.some.injEq] at hif
        refine ⟨fa, ea, ?_, ?_⟩
        · rwa [hif] at hmem
        · rcases ea with _ | ⟨_ | _⟩ <;> simp_all [isTrueVal]
          rename_i b'
          cases b' <;> simp_all [isTrueVal]
      · simp [h] at hif
    · rintro ⟨fa, ea, hmem, rfl⟩
      exact ⟨(n, fa, some (.pybool true)), hmem, by simp [isTrueVal]⟩

/-- C3.  Evaluating the code at the failing input: marking node `2` as a
fork (`edit='Fork'` from an empty annotation state) succeeds and yields
`forks = [2]`, but the subsequent `edit='Close'` on the same node raises
`ValueError` — its guard tests membership in `forks` yet removes from
`endpoints` (where the node is absent) instead of clearing the fork
mark, so fork and endpoint marks are not mutually exclusive as the
symmetric `'Fork'` branch (which does clear a prior endpoint mark) and
the spec require. -/
theorem fork_then_close_code_divergence :
    edit_node "Fork" 2 [] [] = Except.ok ([2], []) ∧
    edit_node "Close" 2 [2] [] =
      Except.error "ValueError: list.remove(x): x not in list" ∧
    edit_node "Fork" 2 [] [2] = Except.ok ([2], []) :=
  ⟨rfl, rfl, rfl⟩

/-- C5.  The selection list never exceeds two elements: starting from
the empty selection, any sequence of click (with or without the SHIFT
extend modifier), swap and clear operations keeps `len(selected) ≤ 2`;
in particular a click arriving while two nodes are selected first clears
the list and yields a singleton, so length 3 is unreachable. -/
theorem selection_length_invariant :
    (∀ ops : List SelOp, (runSelOps [] ops).length ≤ 2) ∧
    (∀ (s : List Nat) (n : Nat) (m : Bool),
      s.length = 2 → select_node s n m = [n]) := by
  constructor
  · have step : ∀ (s : List Nat) (op : SelOp),
        s.length ≤ 2 → (applySelOp s op).length ≤ 2 := by
      intro s op hs
      cases op with
      | click n m =>
        simp only [applySelOp, select_node]
        split
        · split
          · rename_i h
            simp at h
          · simp
        · split
          · rename_i h
            simp only [Bool.and_eq_true, beq_iff_eq] at h
            simp [h.2]
          · simp
      | swap =>
        simp only [applySelOp, flipSel]
        split
        · simp
        · exact hs
      | clear => simp [applySelOp, resetSel]
    intro ops
    have main : ∀ (ops : List SelOp) (s : List Nat),
        s.length ≤ 2 → (runSelOps s ops).length ≤ 2 := by
      intro ops
      induction ops with
      | nil => intro s hs; simpa [runSelOps] using hs
      | cons op rest ih =>
        intro s hs
        simpa [runSelOps] using ih (applySelOp s op) (step s op hs)
    exact main ops [] (by simp)
  · intro s n m hs
    simp [select_node, hs]

/-- C5, witness: a SHIFT-extended pair followed by a further click stays
within the bound, and a click on a full selection replaces it. -/
theorem selection_length_invariant_witness :
    (runSelOps [] [.click 1 false, .click 2 true, .click 3 false]).length ≤ 2 ∧
    select_node [1, 2] 3 false = [3] :=
  ⟨selection_length_invariant.1 [.click 1 false, .click 2 true, .click 3 false],
   selection_length_invariant.2 [1, 2] 3 false rfl⟩

/-- C8.  The connectivity check returns `true` exactly when the two
selected nodes' time points differ by exactly one; when it returns
`true` and the second-selected node has the smaller time point the pair
is flipped so that index 0 holds the earlier node, otherwise (including
every `false` outcome) the selection order is unchanged. -/
theorem check_connection_spec (n1 n2 : SelNode) :
    ((check_connection n1 n2).1 = true ↔
      (n2.t - n1.t = 1 ∨ n1.t - n2.t = 1)) ∧
    ((n2.t - n1.t = 1 ∨ n1.t - n2.t = 1) ↔ (n1.t - n2.t).natAbs = 1) ∧
    ((check_connection n1 n2).1 = true → n2.t < n1.t →
      (check_connection n1 n2).2 = [n2, n1]) ∧
    ((check_connection n1 n2).1 = true → ¬ n2.t < n1.t →
      (check_connection n1 n2).2 = [n1, n2]) ∧
    ((check_connection n1 n2).1 = false →
      (check_connection n1 n2).2 = [n1, n2]) := by
  refine ⟨?_, ?_, ?_, ?_, ?_⟩
  · simp only [check_connection]
    split
    · rename_i h
      simpa using h
    · rename_i h
      constructor
      · intro _
        exact not_not.mp h
      · intro _
        split <;> rfl
  · omega
  · intro htrue hlt
    simp only [check_connection] at htrue ⊢
    split at htrue
    · simp at htrue
    · rename_i h
      rw [if_neg h, if_pos hlt]
  · intro htrue hge
    simp only [check_connection] at htrue ⊢
    split at htrue
    · simp at htrue
    · rename_i h
      rw [if_neg h, if_neg hge]
  · intro hfalse
    simp only [check_connection] at hfalse ⊢
    split at hfalse
    · rename_i h
      rw [if_pos h]
    · rename_i h
      split at hfalse <;> simp at hfalse

/-- C8, witness: Scenario E — selection `[(t=2), (t=1)]` is connectable
and is reordered to `[(t=1), (t=2)]`. -/
theorem check_connection_spec_witness :
    (check_connection ⟨1, 2⟩ ⟨2, 1⟩).1 = true ∧
    (check_connection ⟨1, 2⟩ ⟨2, 1⟩).2 = [⟨2, 1⟩, ⟨1, 2⟩] := by
  have h := check_connection_spec ⟨1, 2⟩ ⟨2, 1⟩
  have ht : (check_connection ⟨1, 2⟩ ⟨2, 1⟩).1 = true :=
    h.1.mpr (by decide)
  exact ⟨ht, h.2.2.1 ht (by decide)⟩

/-- The rows of a list carry consecutive `index` values starting at
`base`. -/
def IndexedFrom (base : Nat) (rs : List Row) : Prop :=
  ∀ j (hj : j < rs.length), (rs.get ⟨j, hj⟩).index = base + j

/-- Every row records the first listed predecessor of its node as
`parent_id` (the `predecessors[0]` choice of the source). -/
def HeadParent (g : TGraph) (rs : List Row) : Prop :=
  ∀ r ∈ rs, ∀ p ps, predsOf g r.node_id = p :: ps → r.parent_id = p

theorem indexedFrom_nil (base : Nat) : IndexedFrom base [] := by
  intro j hj
  simp at hj

theorem indexedFrom_cons {base : Nat} {x : Row} {rs : List Row}
    (hx : x.index = base) (hrs : IndexedFrom (base + 1) rs) :
    IndexedFrom base (x :: rs) := by
  intro j hj
  cases j with
  | zero => simpa using hx
  | succ j =>
    have hj' : j < rs.length := by simpa using hj
    have := hrs j hj'
    simpa [List.get, Nat.add_assoc, Nat.add_comm 1 j] using this

theorem indexedFrom_congr {b b' : Nat} {rs : List Row} (h : b = b')
    (hb : IndexedFrom b rs) : IndexedFrom b' rs := h ▸ hb

theorem indexedFrom_append {xs ys : List Row} {b : Nat}
    (hx : IndexedFrom b xs) (hy : IndexedFrom (b + xs.length) ys) :
    IndexedFrom b (xs ++ ys) := by
  induction xs generalizing b with
  | nil => simpa using indexedFrom_congr (by simp) hy
  | cons x rest ih =>
    have hx0 : x.index = b := by simpa using hx 0 (by simp)
    have hxr : IndexedFrom (b + 1) rest := by
      intro j hj
      have heq : b + 1 + j = b + (j + 1) := by omega
      rw [heq]
      simpa [List.get] using hx (j + 1) (by simpa using Nat.succ_lt_succ hj)
    have hy' : IndexedFrom ((b + 1) + rest.length) ys :=
      indexedFrom_congr (by simp [List.length_cons]; omega) hy
    exact indexedFrom_cons hx0 (ih hxr hy')

theorem headParent_append {g : TGraph} {xs ys : List Row}
    (hx : HeadParent g xs) (hy : HeadParent g ys) :
    HeadParent g (xs ++ ys) := by
  intro r hr
  rcases List.mem_append.mp hr with h | h
  · exact hx r h
  · exact hy r h

theorem processNode_ok {g : TGraph} {cmap : Nat → List Nat}
    {st : ExtractState} {ptid : Option Nat} {nd : PNode}
    {st' : ExtractState} {ptid' : Option Nat}
    (h : processNode g cmap st ptid nd = .ok (st', ptid')) :
    ∃ pid v, st' = pushRow st (mkRow cmap st nd pid v) ∧ ptid' = some v ∧
      (∀ p ps, predsOf g nd.id = p :: ps → pid = p) := by
  unfold processNode at h
  split at h
  · exact absurd h (by simp)
  · split at h
    · rename_i hpreds
      simp only [Except.ok.injEq, Prod.mk.injEq] at h
      refine ⟨0, 0, h.1.symm, h.2.symm, fun p ps hp => ?_⟩
      rw [hpreds] at hp
      cases hp
    · rename_i p rest hpreds
      split at h
      · rename_i v
        simp only [Except.ok.injEq, Prod.mk.injEq] at h
        refine ⟨p, v, h.1.symm, h.2.symm, fun p' ps' hp => ?_⟩
        rw [hpreds] at hp
        simp only [List.cons.injEq] at hp
        exact hp.1
      · split at h
        · rename_i tid hlook
          simp only [Except.ok.injEq, Prod.mk.injEq] at h
          refine ⟨p, tid, h.1.symm, h.2.symm, fun p' ps' hp => ?_⟩
          rw [hpreds] at hp
          simp only [List.cons.injEq] at hp
          exact hp.1
        · exact absurd h (by simp)

theorem processNodes_ok {g : TGraph} {cmap : Nat → List Nat} :
    ∀ {ns : List Nat} {st : ExtractState} {ptid : Option Nat}
      {st' : ExtractState} {ptid' : Option Nat},
    processNodes g cmap ns st ptid = .ok (st', ptid') →
    ∃ new : List Row,
      st'.trackList = st.trackList ++ new ∧
      st'.counter = st.counter + new.length ∧
      st'.idCounter = st.idCounter ∧
      new.map Row.node_id = ns.map (fun v => (nodeData g v).id) ∧
      (∀ r ∈ new, r.track_id = st.idCounter) ∧
      IndexedFrom st.counter new ∧
      HeadParent g new := by
  intro ns
  induction ns with
  | nil =>
    intro st ptid st' ptid' h
    simp only [processNodes, Except.ok.injEq, Prod.mk.injEq] at h
    refine ⟨[], ?_, ?_, ?_, ?_, ?_, ?_, ?_⟩ <;>
      simp [← h.1, indexedFrom_nil, HeadParent]
  | cons v vs ih =>
    intro st ptid st' ptid' h
    simp only [processNodes] at h
    split at h
    · exact absurd h (by simp)
    · rename_i st1 ptid1 heq
      obtain ⟨pid, pv, hst1, hptid1, hpid⟩ := processNode_ok heq
      obtain ⟨new', h1, h2, h3, h4, h5, h6, h7⟩ := ih h
      subst hst1
      refine ⟨mkRow cmap st (nodeData g v) pid pv :: new', ?_, ?_, ?_, ?_, ?_, ?_, ?_⟩
      · rw [h1]
        simp [pushRow, List.append_assoc]
      · rw [h2]
        simp [pushRow]
        omega
      · rw [h3]
        simp [pushRow]
      · simp only [List.map_cons, h4]
        rfl
      · intro r hr
        rcases List.mem_cons.mp hr with rfl | hr'
        · rfl
        · have := h5 r hr'
          simpa [pushRow] using this
      · refine indexedFrom_cons rfl ?_
        have : st.counter + 1 = (pushRow st (mkRow cmap st (nodeData g v) pid pv)).counter := by
          simp [pushRow]
        rw [this]
        exact h6
      · intro r hr
        rcases List.mem_cons.mp hr with rfl | hr'
        · intro p ps hp
          exact (hpid p ps hp).symm ▸ rfl
        · exact h7 r hr'

theorem processComponent_ok {g : TGraph} {cmap : Nat → List Nat}
    {st : ExtractState} {c : List Nat} {st2 : ExtractState}
    {entry : Nat × Option Nat}
    (h : processComponent g cmap st c = .ok (st2, entry)) :
    ∃ new : List Row,
      st2.trackList = st.trackList ++ new ∧
      st2.counter = st.counter + new.length ∧
      st2.idCounter = st.idCounter + 1 ∧
      entry.1 = st.idCounter ∧
      new.map Row.node_id = (sortByTime g c).map (fun v => (nodeData g v).id) ∧
      (∀ r ∈ new, r.track_id = st.idCounter) ∧
      IndexedFrom st.counter new ∧
      HeadParent g new := by
  unfold processComponent at h
  split at h
  · exact absurd h (by simp)
  · rename_i st1 ptid heq
    obtain ⟨new, a1, a2, a3, a4, a5, a6, a7⟩ := processNodes_ok heq
    simp only [Except.ok.injEq, Prod.mk.injEq] at h
    obtain ⟨hst2, hentry⟩ := h
    subst hst2
    refine ⟨new, by simpa using a1, by simpa using a2, by simp [a3],
      ?_, a4, a5, by simpa using a6, a7⟩
    rw [← hentry]
    simpa using a3

theorem extractLoop_ok {g : TGraph} {cmap : Nat → List Nat} :
    ∀ {cs : List (List Nat)} {st stF : ExtractState}
      {mapping : List (Nat × Option Nat)},
    extractLoop g cmap cs st = .ok (stF, mapping) →
    ∃ chunks : List (List Row),
      stF.trackList = st.trackList ++ chunks.flatten ∧
      chunks.length = cs.length ∧
      stF.idCounter = st.idCounter + cs.length ∧
      mapping.map Prod.fst = List.range' st.idCounter cs.length ∧
      (∀ k, k < cs.length →
        (chunks.getD k []).map Row.node_id =
          (sortByTime g (cs.getD k [])).map (fun v => (nodeData g v).id) ∧
        ∀ r ∈ chunks.getD k [], r.track_id = st.idCounter + k) ∧
      IndexedFrom st.counter chunks.flatten ∧
      HeadParent g chunks.flatten := by
  intro cs
  induction cs with
  | nil =>
    intro st stF mapping h
    simp only [extractLoop, Except.ok.injEq, Prod.mk.injEq] at h
    refine ⟨[], ?_, ?_, ?_, ?_, ?_, ?_, ?_⟩ <;>
      simp [← h.1, ← h.2, indexedFrom_nil, HeadParent]
  | cons c cs ih =>
    intro st stF mapping h
    simp only [extractLoop] at h
    split at h
    · exact absurd h (by simp)
    · rename_i st2 entry heq2
      split at h
      · exact absurd h (by simp)
      · rename_i stF' rest heqL
        simp only [Except.ok.injEq, Prod.mk.injEq] at h
        obtain ⟨hstF, hmap⟩ := h
        subst hstF
        subst hmap
        obtain ⟨new, b1, b2, b3, b4, b5, b6, b7, b8⟩ := processComponent_ok heq2
        obtain ⟨chunks', c1, c2, c3, c4, c5, c6, c7⟩ := ih heqL
        refine ⟨new :: chunks', ?_, ?_, ?_, ?_, ?_, ?_, ?_⟩
        · rw [c1, b1]
          simp [List.append_assoc]
        · simp [c2]
        · rw [c3, b3]
          simp [List.length_cons]
          omega
        · simp only [List.map_cons, c4, b4, b3, List.length_cons]
          rw [List.range'_succ]
        · intro k hk
          cases k with
          | zero =>
            constructor
            · simpa [List.getD_cons_zero] using b5
            · intro r hr
              simpa using b6 r (by simpa [List.getD_cons_zero] using hr)
          | succ k =>
            have hk' : k < cs.length := by
              simpa [List.length_cons] using hk
            obtain ⟨d1, d2⟩ := c5 k hk'
            constructor
            · simpa [List.getD_cons_succ] using d1
            · intro r hr
              have := d2 r (by simpa [List.getD_cons_succ] using hr)
              rw [this, b3]
              omega
        · simp only [List.flatten_cons]
          refine indexedFrom_append b7 ?_
          exact indexedFrom_congr b2 c6
        · simp only [List.flatten_cons]
          exact headParent_append b8 c7

theorem assignXPos_ok {order : List Nat} :
    ∀ {rs rows : List Row}, assignXPos order rs = .ok rows →
    rows = rs.map (fun r => { r with x_axis_pos := pyIndex order r.track_id }) := by
  intro rs
  induction rs with
  | nil =>
    intro rows h
    simp only [assignXPos, Except.ok.injEq] at h
    simp [← h]
  | cons r rs ih =>
    intro rows h
    simp only [assignXPos] at h
    split at h
    · split at h
      · rename_i rs' heq
        simp only [Except.ok.injEq] at h
        rw [← h, List.map_cons, ih heq]
      · exact absurd h (by simp)
    · exact absurd h (by simp)

theorem extract_ok {g : TGraph} {cmap : Nat → List Nat} {rows : List Row}
    (h : extract_sorted_tracks g cmap = .ok rows) :
    ∃ st mapping,
      extractLoop g cmap (components g) ⟨[], 0, 1⟩ = .ok (st, mapping) ∧
      rows = st.trackList.map
        (fun r => { r with
          x_axis_pos := pyIndex (sort_track_ids mapping) r.track_id }) := by
  unfold extract_sorted_tracks at h
  split at h
  · exact absurd h (by simp)
  · rename_i st mapping heq
    exact ⟨st, mapping, heq, assignXPos_ok h⟩

/-- C7.  Whenever the extraction returns a row set, any two rows with
the same `track_id` have the same `x_axis_pos`: the column is computed
as `x_axis_order.index(track_id)`, a function of the track id alone. -/
theorem x_axis_pos_constant_per_track (g : TGraph) (cmap : Nat → List Nat)
    (rows : List Row) (h : extract_sorted_tracks g cmap = .ok rows) :
    ∀ r1 ∈ rows, ∀ r2 ∈ rows, r1.track_id = r2.track_id →
      r1.x_axis_pos = r2.x_axis_pos := by
  obtain ⟨st, mapping, -, hrows⟩ := extract_ok h
  subst hrows
  intro r1 h1 r2 h2 htid
  obtain ⟨s1, -, rfl⟩ := List.mem_map.mp h1
  obtain ⟨s2, -, rfl⟩ := List.mem_map.mp h2
  exact congrArg (pyIndex (sort_track_ids mapping)) htid

/-- C7, witness: the division scenario `gB`. -/
theorem x_axis_pos_constant_per_track_witness :
    extract_sorted_tracks gB cmap0 =
      Except.ok
        [⟨0, 1, 1, [], 0, 0, none, 0, 0, 0, 1⟩,
         ⟨1, 2, 2, [], 0, 0, none, 1, 1, 1, 0⟩,
         ⟨1, 3, 3, [], 0, 0, none, 2, 1, 1, 2⟩] ∧
    (∀ r1 ∈ ([⟨0, 1, 1, [], 0, 0, none, 0, 0, 0, 1⟩,
         ⟨1, 2, 2, [], 0, 0, none, 1, 1, 1, 0⟩,
         ⟨1, 3, 3, [], 0, 0, none, 2, 1, 1, 2⟩] : List Row),
      ∀ r2 ∈ ([⟨0, 1, 1, [], 0, 0, none, 0, 0, 0, 1⟩,
         ⟨1, 2, 2, [], 0, 0, none, 1, 1, 1, 0⟩,
         ⟨1, 3, 3, [], 0, 0, none, 2, 1, 1, 2⟩] : List Row),
        r1.track_id = r2.track_id → r1.x_axis_pos = r2.x_axis_pos) :=
  ⟨rfl, x_axis_pos_constant_per_track gB cmap0 _ rfl⟩

/-- C10.  Whenever the extraction returns a row set, the `'index'` field
of each row equals its 0-based position in the returned list, so
adjacency pairs built from `'index'` fields reference the intended
rows. -/
theorem row_index_positions (g : TGraph) (cmap : Nat → List Nat)
    (rows : List Row) (h : extract_sorted_tracks g cmap = .ok rows) :
    ∀ i (hi : i < rows.length), (rows.get ⟨i, hi⟩).index = i := by
  obtain ⟨st, mapping, hloop, hrows⟩ := extract_ok h
  obtain ⟨chunks, t1, -, -, -, -, t6, -⟩ := extractLoop_ok hloop
  have htl : st.trackList = chunks.flatten := by simpa using t1
  subst hrows
  intro i hi
  have hlen : i < st.trackList.length := by simpa using hi
  have hmap : (st.trackList.map
      (fun r => { r with
        x_axis_pos := pyIndex (sort_track_ids mapping) r.track_id })).get
        ⟨i, hi⟩ =
      { st.trackList.get ⟨i, hlen⟩ with
        x_axis_pos := pyIndex (sort_track_ids mapping)
          (st.trackList.get ⟨i, hlen⟩).track_id } := by
    simp [List.get_eq_getElem, List.getElem_map]
  rw [hmap]
  rw [← htl] at t6
  simpa using t6 i hlen

/-- C10, witness: the division scenario `gB`. -/
theorem row_index_positions_witness :
    extract_sorted_tracks gB cmap0 =
      Except.ok
        [⟨0, 1, 1, [], 0, 0, none, 0, 0, 0, 1⟩,
         ⟨1, 2, 2, [], 0, 0, none, 1, 1, 1, 0⟩,
         ⟨1, 3, 3, [], 0, 0, none, 2, 1, 1, 2⟩] ∧
    (∀ i (hi : i < ([⟨0, 1, 1, [], 0, 0, none, 0, 0, 0, 1⟩,
         ⟨1, 2, 2, [], 0, 0, none, 1, 1, 1, 0⟩,
         ⟨1, 3, 3, [], 0, 0, none, 2, 1, 1, 2⟩] : List Row).length),
      (([⟨0, 1, 1, [], 0, 0, none, 0, 0, 0, 1⟩,
         ⟨1, 2, 2, [], 0, 0, none, 1, 1, 1, 0⟩,
         ⟨1, 3, 3, [], 0, 0, none, 2, 1, 1, 2⟩] : List Row).get
        ⟨i, hi⟩).index = i) :=
  ⟨rfl, row_index_positions gB cmap0 _ rfl⟩

/-- C2, amended.  The extraction never rejects a node with several
predecessors: whenever it returns a row set, each row whose node has a
nonempty predecessor list records the first listed predecessor as
`parent_id`, silently ignoring any further predecessors. -/
theorem first_predecessor_amended (g : TGraph) (cmap : Nat → List Nat)
    (rows : List Row) (h : extract_sorted_tracks g cmap = .ok rows) :
    ∀ r ∈ rows, ∀ p ps, predsOf g r.node_id = p :: ps → r.parent_id = p := by
  obtain ⟨st, mapping, hloop, hrows⟩ := extract_ok h
  obtain ⟨chunks, t1, -, -, -, -, -, t7⟩ := extractLoop_ok hloop
  have htl : st.trackList = chunks.flatten := by simpa using t1
  subst hrows
  intro r hr p ps hp
  obtain ⟨s, hs, rfl⟩ := List.mem_map.mp hr
  exact t7 s (htl ▸ hs) p ps hp

/-- C2, amended, witness: the in-degree-2 graph `gC`, whose node `3` has
predecessors `[1, 2]` and whose row records `parent_id = 1`. -/
theorem first_predecessor_amended_witness :
    extract_sorted_tracks gC cmap0 =
      Except.ok
        [⟨0, 1, 1, [], 0, 0, none, 0, 0, 0, 0⟩,
         ⟨0, 2, 1, [], 0, 0, none, 1, 0, 0, 0⟩,
         ⟨1, 3, 1, [], 0, 0, none, 2, 1, 0, 0⟩] ∧
    predsOf gC 3 = [1, 2] ∧
    (⟨1, 3, 1, [], 0, 0, none, 2, 1, 0, 0⟩ : Row).parent_id = 1 :=
  ⟨rfl, rfl,
    first_predecessor_amended gC cmap0
      [⟨0, 1, 1, [], 0, 0, none, 0, 0, 0, 0⟩,
       ⟨0, 2, 1, [], 0, 0, none, 1, 0, 0, 0⟩,
       ⟨1, 3, 1, [], 0, 0, none, 2, 1, 0, 0⟩] (by rfl)
      ⟨1, 3, 1, [], 0, 0, none, 2, 1, 0, 0⟩ (by simp) 1 [2] rfl⟩

theorem insertByT_length (g : TGraph) (v : Nat) :
    ∀ l, (insertByT g v l).length = l.length + 1 := by
  intro l
  induction l with
  | nil => rfl
  | cons w ws ih =>
    simp only [insertByT]
    split
    · simp [ih]
    · simp

theorem sortByTime_length (g : TGraph) :
    ∀ ns, (sortByTime g ns).length = ns.length := by
  intro ns
  induction ns with
  | nil => rfl
  | cons v vs ih => simp [sortByTime, insertByT_length, ih]

theorem mem_iterate_growComp {es : List (Nat × Nat)} (x : Nat) :
    ∀ (n : Nat) (s : List Nat), x ∈ s → x ∈ (growComp es)^[n] s := by
  intro n
  induction n with
  | zero => intro s h; simpa using h
  | succ n ih =>
    intro s h
    rw [Function.iterate_succ_apply]
    exact ih _ (List.mem_append_left _ h)

theorem mem_compMembers_self (g : TGraph) (u : Nat) :
    u ∈ compMembers g u :=
  mem_iterate_growComp u _ [u] (by simp)

theorem compOf_ne_nil (g : TGraph) (u : Nat)
    (hu : u ∈ g.nodes.map PNode.id) : compOf g u ≠ [] := by
  have hmem : u ∈ compOf g u := by
    simp only [compOf, List.mem_filter]
    exact ⟨hu, by simp [mem_compMembers_self g u]⟩
  intro hemp
  rw [hemp] at hmem
  cases hmem

theorem componentsAux_ne_nil (g : TGraph) :
    ∀ (l seen : List Nat), (∀ v ∈ l, v ∈ g.nodes.map PNode.id) →
    ∀ c ∈ componentsAux g l seen, c ≠ [] := by
  intro l
  induction l with
  | nil => intro seen _ c hc; simp [componentsAux] at hc
  | cons v rest ih =>
    intro seen h c hc
    simp only [componentsAux] at hc
    split at hc
    · exact ih _ (fun w hw => h w (List.mem_cons_of_mem _ hw)) c hc
    · rcases List.mem_cons.mp hc with rfl | hc'
      · exact compOf_ne_nil g v (h v (List.mem_cons_self _ _))
      · exact ih _ (fun w hw => h w (List.mem_cons_of_mem _ hw)) c hc'

theorem components_ne_nil (g : TGraph) :
    ∀ c ∈ components g, c ≠ [] :=
  fun c hc => componentsAux_ne_nil g _ [] (fun _ hv => hv) c hc

theorem getD_map_rows (f : Row → Row) :
    ∀ (L : List (List Row)) (k : Nat),
    (L.map (List.map f)).getD k [] = List.map f (L.getD k []) := by
  intro L
  induction L with
  | nil => intro k; simp [List.getD]
  | cons a L ih =>
    intro k
    cases k with
    | zero => simp [List.getD_cons_zero]
    | succ k =>
      simp only [List.map_cons, List.getD_cons_succ]
      exact ih k

/-- The conclusion of claim C6 for a returned row set: the rows split
into consecutive chunks, one per weakly connected component of the
reduced graph (in discovery order), chunk `k` holding exactly the rows
of component `k`'s time-sorted nodes, all carrying `track_id = k + 1`;
consequently the set of assigned track ids is exactly `1..K` for `K`
the number of chains. -/
def TrackAssignmentSpec (g : TGraph) (rows : List Row) : Prop :=
  ∃ chunks : List (List Row),
    rows = chunks.flatten ∧
    chunks.length = (components g).length ∧
    (∀ k, k < (components g).length →
      (chunks.getD k []).map Row.node_id =
        (sortByTime g ((components g).getD k [])).map
          (fun v => (nodeData g v).id) ∧
      ∀ r ∈ chunks.getD k [], r.track_id = k + 1) ∧
    (∀ tid, (∃ r ∈ rows, r.track_id = tid) ↔
      1 ≤ tid ∧ tid ≤ (components g).length)

/-- C6, amended.  For every acyclic graph with in-degree at most 1 on
which the extraction returns (it raises when a division child's chain is
discovered before its parent's chain), the assigned track ids are
exactly `1..K`, `K` the number of maximal single-successor chains
(weak components after removing division out-edges), one id per chain,
shared by all rows of that chain. -/
theorem track_ids_chain_partition (g : TGraph) (cmap : Nat → List Nat)
    (rows : List Row) (_hdeg : inDegLeOneB g = true)
    (_hacy : acyclicB g = true)
    (h : extract_sorted_tracks g cmap = .ok rows) :
    TrackAssignmentSpec g rows := by
  obtain ⟨st, mapping, hloop, hrows⟩ := extract_ok h
  obtain ⟨chunks, t1, t2, t3, t4, t5, t6, t7⟩ := extractLoop_ok hloop
  have htl : st.trackList = chunks.flatten := by simpa using t1
  set f := fun r : Row =>
    { r with x_axis_pos := pyIndex (sort_track_ids mapping) r.track_id }
    with hf
  refine ⟨chunks.map (List.map f), ?_, ?_, ?_, ?_⟩
  · rw [hrows, htl, List.map_flatten]
  · simpa using t2
  · intro k hk
    have hk2 : k < chunks.length := by rw [t2]; exact hk
    obtain ⟨d1, d2⟩ := t5 k hk
    constructor
    · rw [getD_map_rows, ← d1, List.map_map]
      rfl
    · intro r hr
      rw [getD_map_rows] at hr
      obtain ⟨s, hs, rfl⟩ := List.mem_map.mp hr
      have htid : s.track_id = 1 + k := d2 s hs
      have : (f s).track_id = s.track_id := rfl
      omega
  · intro tid
    constructor
    · rintro ⟨r, hr, rfl⟩
      rw [hrows, htl] at hr
      obtain ⟨s, hs, rfl⟩ := List.mem_map.mp hr
      obtain ⟨l, hl, hsl⟩ := List.mem_flatten.mp hs
      obtain ⟨n, hn⟩ := List.mem_iff_get.mp hl
      have hn2 : (n : Nat) < (components g).length := by
        rw [← t2]; exact n.isLt
      obtain ⟨-, d2⟩ := t5 n hn2
      have hget : chunks.getD (n : Nat) [] = l := by
        rw [List.getD_eq_getElem _ _ n.isLt, ← List.get_eq_getElem, hn]
      have htid : s.track_id = 1 + (n : Nat) := d2 s (by rw [hget]; exact hsl)
      have : (f s).track_id = s.track_id := rfl
      constructor
      · omega
      · omega
    · rintro ⟨h1, h2⟩
      have hk : tid - 1 < (components g).length := by omega
      have hk2 : tid - 1 < chunks.length := by rw [t2]; exact hk
      obtain ⟨d1, d2⟩ := t5 (tid - 1) hk
      have hlen : (chunks.getD (tid - 1) []).length =
          (sortByTime g ((components g).getD (tid - 1) [])).length := by
        have := congrArg List.length d1
        simpa using this
      have hcompmem : (components g).getD (tid - 1) [] ∈ components g := by
        rw [List.getD_eq_getElem _ _ hk]
        exact List.getElem_mem hk
      have hpos : 0 < (chunks.getD (tid - 1) []).length := by
        rw [hlen, sortByTime_length]
        exact List.length_pos.mpr (components_ne_nil g _ hcompmem)
      refine ⟨f ((chunks.getD (tid - 1) []).get ⟨0, hpos⟩), ?_, ?_⟩
      · rw [hrows, htl]
        refine List.mem_map.mpr ⟨_, ?_, rfl⟩
        refine List.mem_flatten.mpr ⟨chunks.getD (tid - 1) [], ?_, ?_⟩
        · rw [List.getD_eq_getElem _ _ hk2]
          exact List.getElem_mem hk2
        · exact List.get_mem _ _ hpos
      · have htid : ((chunks.getD (tid - 1) []).get ⟨0, hpos⟩).track_id =
            1 + (tid - 1) := d2 _ (List.get_mem _ _ hpos)
        have : (f ((chunks.getD (tid - 1) []).get ⟨0, hpos⟩)).track_id =
            ((chunks.getD (tid - 1) []).get ⟨0, hpos⟩).track_id := rfl
        omega

/-- C6, counterexample.  The claim's domain admits graphs whose node
insertion order places a division's children before the parent; on such
a graph (`gD`: acyclic, in-degree ≤ 1 everywhere) the extraction does
not assign track ids at all — it raises `IndexError` looking up the
unprocessed parent. -/
theorem track_id_permutation_counterexample :
    inDegLeOneB gD = true ∧ acyclicB gD = true ∧
    extract_sorted_tracks gD cmap0 =
      Except.error "IndexError: parent_id not yet in track_list" :=
  ⟨rfl, rfl, rfl⟩

/-- C6, witness: the division scenario `gB` (acyclic, in-degree ≤ 1,
extraction succeeds). -/
theorem track_ids_chain_partition_witness :
    inDegLeOneB gB = true ∧ acyclicB gB = true ∧
    extract_sorted_tracks gB cmap0 =
      Except.ok
        [⟨0, 1, 1, [], 0, 0, none, 0, 0, 0, 1⟩,
         ⟨1, 2, 2, [], 0, 0, none, 1, 1, 1, 0⟩,
         ⟨1, 3, 3, [], 0, 0, none, 2, 1, 1, 2⟩] ∧
    TrackAssignmentSpec gB
      [⟨0, 1, 1, [], 0, 0, none, 0, 0, 0, 1⟩,
       ⟨1, 2, 2, [], 0, 0, none, 1, 1, 1, 0⟩,
       ⟨1, 3, 3, [], 0, 0, none, 2, 1, 1, 2⟩] :=
  ⟨rfl, rfl, rfl,
    track_ids_chain_partition gB cmap0
      [⟨0, 1, 1, [], 0, 0, none, 0, 0, 0, 1⟩,
       ⟨1, 2, 2, [], 0, 0, none, 1, 1, 1, 0⟩,
       ⟨1, 3, 3, [], 0, 0, none, 2, 1, 1, 2⟩] rfl rfl (by rfl)⟩

theorem findPin_cons (p : Nat × Nat × Bool) (ps : List (Nat × Nat × Bool))
    (u v : Nat) :
    findPin (p :: ps) u v =
      match findPin ps u v with
      | some b => some b
      | none => if p.1 == u && p.2.1 == v then some p.2.2 else none := by
  have key : ∀ (l : List (Nat × Nat × Bool)) (acc : Option Bool),
      l.foldl (fun a q => if q.1 == u && q.2.1 == v then some q.2.2 else a)
          acc =
        match findPin l u v with
        | some b => some b
        | none => acc := by
    intro l
    induction l with
    | nil => intro acc; simp [findPin]
    | cons q l ih =>
      intro acc
      rw [List.foldl_cons, ih]
      have h2 : findPin (q :: l) u v =
          match findPin l u v with
          | some b => some b
          | none => if q.1 == u && q.2.1 == v then some q.2.2 else none := by
        show List.foldl _
          (if q.1 == u && q.2.1 == v then some q.2.2 else none) l = _
        rw [ih]
      rw [h2]
      cases hfp : findPin l u v with
      | some b => rfl
      | none =>
        by_cases hc : (q.1 == u && q.2.1 == v) = true
        · rw [if_pos hc, if_pos hc]
        · rw [if_neg hc, if_neg hc]
  have : findPin (p :: ps) u v =
      ps.foldl (fun a q => if q.1 == u && q.2.1 == v then some q.2.2 else a)
        (if p.1 == u && p.2.1 == v then some p.2.2 else none) := rfl
  rw [this, key]

theorem findPin_mem {ps : List (Nat × Nat × Bool)} {u v : Nat} {b : Bool}
    (h : findPin ps u v = some b) : (u, v, b) ∈ ps := by
  induction ps with
  | nil => simp [findPin] at h
  | cons p ps ih =>
    obtain ⟨p1, p2, p3⟩ := p
    rw [findPin_cons] at h
    cases hfp : findPin ps u v with
    | some b' =>
      rw [hfp] at h
      have hb : b' = b := by simpa using h
      subst hb
      exact List.mem_cons_of_mem _ (ih hfp)
    | none =>
      rw [hfp] at h
      have h' : (if p1 == u && p2 == v then some p3 else none) = some b := h
      split at h'
      · rename_i hc
        simp only [Bool.and_eq_true, beq_iff_eq] at hc
        have hb : p3 = b := by simpa using h'
        rw [← hc.1, ← hc.2, ← hb]
        exact List.mem_cons_self _ _
      · cases h'

theorem mem_findPin {ps : List (Nat × Nat × Bool)} {u v : Nat} {b : Bool}
    (hnd : ps.Pairwise (fun a b => (a.1, a.2.1) ≠ (b.1, b.2.1)))
    (h : (u, v, b) ∈ ps) : findPin ps u v = some b := by
  induction ps with
  | nil => cases h
  | cons p ps ih =>
    rw [findPin_cons]
    rcases List.mem_cons.mp h with rfl | hmem
    · cases hfp : findPin ps u v with
      | some b' =>
        exfalso
        have hkey := (List.pairwise_cons.mp hnd).1 _ (findPin_mem hfp)
        exact hkey rfl
      | none => simp
    · have := ih (List.pairwise_cons.mp hnd).2 hmem
      rw [this]

theorem edgeExists_setEdgeAttr (es : List (Nat × Nat × Option PyVal))
    (s t a b : Nat) (v : PyVal) :
    edgeExists (setEdgeAttr es s t v) a b = edgeExists es a b := by
  induction es with
  | nil => rfl
  | cons e es ih =>
    obtain ⟨e1, e2, e3⟩ := e
    simp only [setEdgeAttr, List.map_cons, edgeExists, List.any_cons] at ih ⊢
    by_cases hc : (e1 == s && e2 == t) = true
    · rw [if_pos hc, ih]
    · rw [if_neg hc, ih]

theorem applyPins_ok :
    ∀ {ps : List (Nat × Nat × Bool)} {g g' : AGraph},
    applyPins g ps = .ok g' →
    g'.nodes = g.nodes ∧
    g'.edges = g.edges.map (fun e =>
      match findPin ps e.1 e.2.1 with
      | some b => (e.1, e.2.1, some (.pybool b))
      | none => e) ∧
    ∀ p ∈ ps, edgeExists g.edges p.1 p.2.1 = true := by
  intro ps
  induction ps with
  | nil =>
    intro g g' h
    simp only [applyPins, Except.ok.injEq] at h
    subst h
    refine ⟨rfl, ?_, by simp⟩
    simp [findPin]
  | cons p ps ih =>
    intro g g' h
    obtain ⟨s, t, v⟩ := p
    simp only [applyPins] at h
    split at h
    · rename_i hex
      obtain ⟨i1, i2, i3⟩ := ih h
      refine ⟨by simpa using i1, ?_, ?_⟩
      · rw [i2]
        simp only [setEdgeAttr, List.map_map]
        refine List.map_congr_left ?_
        rintro ⟨e1, e2, e3⟩ he
        simp only [Function.comp_apply]
        by_cases hkey : (e1 == s && e2 == t) = true
        · rw [if_pos hkey]
          obtain ⟨rfl, rfl⟩ : e1 = s ∧ e2 = t := by simpa using hkey
          show (match findPin ps e1 e2 with
            | some b => (e1, e2, some (PyVal.pybool b))
            | none => (e1, e2, some (PyVal.pybool v))) =
            match findPin ((e1, e2, v) :: ps) e1 e2 with
            | some b => (e1, e2, some (PyVal.pybool b))
            | none => (e1, e2, e3)
          rw [findPin_cons]
          cases hfp : findPin ps e1 e2 with
          | some b => rfl
          | none => simp
        · rw [if_neg hkey]
          show (match findPin ps e1 e2 with
            | some b => (e1, e2, some (PyVal.pybool b))
            | none => (e1, e2, e3)) =
            match findPin ((s, t, v) :: ps) e1 e2 with
            | some b => (e1, e2, some (PyVal.pybool b))
            | none => (e1, e2, e3)
          rw [findPin_cons]
          cases hfp : findPin ps e1 e2 with
          | some b => rfl
          | none =>
            have hkeyb : (s == e1 && t == e2) = false := by
              simp only [Bool.and_eq_true, beq_iff_eq] at hkey
              simp only [Bool.and_eq_false_iff, beq_eq_false_iff_ne, ne_eq]
              tauto
            rw [hkeyb]
            rfl
      · intro q hq
        rcases List.mem_cons.mp hq with rfl | hmem
        · exact hex
        · have hq2 := i3 q hmem
          rwa [edgeExists_setEdgeAttr] at hq2
    · cases h

theorem mem_pins_solverSelect {g : AGraph} {sel : List (Nat × Nat)}
    {u v : Nat} :
    (u, v) ∈ get_existing_pins (solverSelect g sel) ↔
      ∃ a, (u, v, a) ∈ g.edges ∧ (u, v) ∈ sel ∧ isTrueVal a = true := by
  simp only [get_existing_pins, solverSelect, List.mem_filterMap,
    List.mem_filter]
  constructor
  · rintro ⟨⟨a1, a2, a3⟩, ⟨hmem, hsel⟩, hif⟩
    by_cases h : isTrueVal a3 = true
    · simp only [h, if_true, Option.some.injEq, Prod.mk.injEq] at hif
      obtain ⟨rfl, rfl⟩ := hif
      exact ⟨a3, hmem, by simpa using hsel, h⟩
    · simp [h] at hif
  · rintro ⟨a, hmem, hsel, htrue⟩
    exact ⟨(u, v, a), ⟨hmem, by simpa using hsel⟩, by simp [htrue]⟩

/-- C4.  Round-trip of pins through a solve: derive pins from the edit
log (`Add ↦ pinned=True`, `Break ↦ pinned=False`), write them onto a
candidate graph carrying no prior `'pinned'` attributes, and let the
external solver pick any edge set that honours the `Pin` constraint
(every `pinned=True` edge kept, every `pinned=False` edge dropped).
Re-extracting with `get_existing_pins` from the restricted solution
graph recovers exactly the `True`-valued pins; `False`-valued pins are
not recoverable since their edges are absent from the solution. -/
theorem pins_roundtrip (edits : List EditRow) (g g' : AGraph)
    (sel : List (Nat × Nat))
    (hfresh : ∀ e ∈ g.edges, e.2.2 = none)
    (hnodup : (get_pins edits).Pairwise
      (fun a b => (a.1, a.2.1) ≠ (b.1, b.2.1)))
    (happ : applyPins g (get_pins edits) = .ok g')
    (hsel : PinRespecting g' sel) :
    ∀ u v, (u, v) ∈ get_existing_pins (solverSelect g' sel) ↔
      (u, v, true) ∈ get_pins edits := by
  intro u v
  obtain ⟨hnodes, hedges, hexists⟩ := applyPins_ok happ
  rw [mem_pins_solverSelect]
  constructor
  · rintro ⟨a, hmem, hselmem, htrue⟩
    rw [hedges] at hmem
    obtain ⟨⟨f1, f2, f3⟩, hfmem, hfeq⟩ := List.mem_map.mp hmem
    cases hfp : findPin (get_pins edits) f1 f2 with
    | some b =>
      have hfeq2 : ((f1, f2, some (PyVal.pybool b)) : Nat × Nat × Option PyVal)
          = (u, v, a) := by
        have h0 : (match findPin (get_pins edits) f1 f2 with
            | some c => (f1, f2, some (PyVal.pybool c))
            | none => (f1, f2, f3)) = ((u, v, a) : Nat × Nat × Option PyVal) :=
          hfeq
        rw [hfp] at h0
        exact h0
      have h1 : f1 = u ∧ f2 = v ∧ some (PyVal.pybool b) = a := by
        simpa [Prod.ext_iff] using hfeq2
      obtain ⟨rfl, rfl, ha⟩ := h1
      rw [← ha] at htrue
      have hb : b = true := by
        cases b
        · exact absurd htrue (by decide)
        · rfl
      subst hb
      exact findPin_mem hfp
    | none =>
      have hfeq2 : ((f1, f2, f3) : Nat × Nat × Option PyVal) = (u, v, a) := by
        have h0 : (match findPin (get_pins edits) f1 f2 with
            | some c => (f1, f2, some (PyVal.pybool c))
            | none => (f1, f2, f3)) = ((u, v, a) : Nat × Nat × Option PyVal) :=
          hfeq
        rw [hfp] at h0
        exact h0
      have h1 : f1 = u ∧ f2 = v ∧ f3 = a := by simpa [Prod.ext_iff] using hfeq2
      obtain ⟨rfl, rfl, rfl⟩ := h1
      have hnone : f3 = none := hfresh _ hfmem
      rw [hnone] at htrue
      simp [isTrueVal] at htrue
  · intro hmemtrue
    have hfp : findPin (get_pins edits) u v = some true :=
      mem_findPin hnodup hmemtrue
    have hex : edgeExists g.edges u v = true := hexists _ hmemtrue
    obtain ⟨⟨f1, f2, f3⟩, hfmem, hpred⟩ := List.any_eq_true.mp hex
    have h1 : f1 = u ∧ f2 = v := by simpa using hpred
    obtain ⟨rfl, rfl⟩ := h1
    have hmem' : ((f1, f2, some (PyVal.pybool true)) : Nat × Nat × Option PyVal)
        ∈ g'.edges := by
      rw [hedges]
      refine List.mem_map.mpr ⟨(f1, f2, f3), hfmem, ?_⟩
      show (match findPin (get_pins edits) f1 f2 with
        | some c => (f1, f2, some (PyVal.pybool c))
        | none => (f1, f2, f3)) = ((f1, f2, some (PyVal.pybool true)) :
          Nat × Nat × Option PyVal)
      rw [hfp]
    have hselmem : (f1, f2) ∈ sel := (hsel _ hmem').1 rfl
    exact ⟨some (PyVal.pybool true), hmem', hselmem, by simp [isTrueVal]⟩

/-- C4, witness: edit log `[Add (1,2), Break (3,4)]` applied to a fresh
three-edge candidate graph; the solver keeps `(1,2)` (pinned true) and
the unpinned `(5,6)` and drops the broken `(3,4)`; re-extraction yields
exactly the true pin `(1,2)`. -/
theorem pins_roundtrip_witness :
    (∀ e ∈ (⟨[], [(1, 2, none), (3, 4, none), (5, 6, none)]⟩ : AGraph).edges,
      e.2.2 = none) ∧
    (get_pins [⟨1, 2, "Add"⟩, ⟨3, 4, "Break"⟩]).Pairwise
      (fun a b => (a.1, a.2.1) ≠ (b.1, b.2.1)) ∧
    applyPins ⟨[], [(1, 2, none), (3, 4, none), (5, 6, none)]⟩
        (get_pins [⟨1, 2, "Add"⟩, ⟨3, 4, "Break"⟩]) =
      .ok ⟨[], [(1, 2, some (.pybool true)), (3, 4, some (.pybool false)),
        (5, 6, none)]⟩ ∧
    PinRespecting
      ⟨[], [(1, 2, some (.pybool true)), (3, 4, some (.pybool false)),
        (5, 6, none)]⟩ [(1, 2), (5, 6)] ∧
    (∀ u v, (u, v) ∈ get_existing_pins (solverSelect
        ⟨[], [(1, 2, some (.pybool true)), (3, 4, some (.pybool false)),
          (5, 6, none)]⟩ [(1, 2), (5, 6)]) ↔
      (u, v, true) ∈ get_pins [⟨1, 2, "Add"⟩, ⟨3, 4, "Break"⟩]) :=
  ⟨by decide, by decide, by rfl, by unfold PinRespecting; decide,
    pins_roundtrip [⟨1, 2, "Add"⟩, ⟨3, 4, "Break"⟩]
      ⟨[], [(1, 2, none), (3, 4, none), (5, 6, none)]⟩
      ⟨[], [(1, 2, some (.pybool true)), (3, 4, some (.pybool false)),
        (5, 6, none)]⟩
      [(1, 2), (5, 6)] (by decide) (by decide) (by rfl)
      (by unfold PinRespecting; decide)⟩

/-- C9, amended, witness: a graph holding one boolean-`True` pin and one
integer-`1` pin. -/
theorem is_true_recovery_amended_witness :
    (1, 2) ∈ get_existing_pins
        ⟨[], [(1, 2, some (.pybool true)), (3, 4, some (.pyint 1))]⟩ ↔
      ∃ a, ((1, 2, a) : Nat × Nat × Option PyVal) ∈
          [(1, 2, some (.pybool true)), (3, 4, some (.pyint 1))] ∧
        a = some (.pybool true) :=
  (is_true_recovery_amended
    ⟨[], [(1, 2, some (.pybool true)), (3, 4, some (.pyint 1))]⟩).1 1 2
